import Mathlib

/-!
Verification of the DigiPort project tree exporter
(src/assets/js/export-index-tree.js).

The script recursively walks a directory tree, emitting one flat record per
file or folder, classifying files by extension and extracting metadata
(title, sitemap marker) from HTML files by regex. This file embeds the
walker shallowly: the filesystem is an inductive tree, the mutable output
array and counters become an explicit result value accumulated in traversal
order, and the two JavaScript regexes are modelled by executable scanners
that mirror leftmost, lazy, case-insensitive matching where the dot matches
everything but a line terminator.
-/

/-! ## Characters and strings -/

/-- Models the effect of the JS `toLowerCase` call on the ASCII strings the
script compares (extensions, sitemap values): pointwise `Char.toLower`. -/
def lowerStr (s : String) : String :=
  String.mk (s.toList.map Char.toLower)

/-- The character classes of the JS regex class backslash-s (WhiteSpace and
LineTerminator productions), by code point. -/
def isSpaceJS (c : Char) : Bool :=
  c.toNat == 9 || c.toNat == 10 || c.toNat == 11 || c.toNat == 12 ||
  c.toNat == 13 || c.toNat == 32 || c.toNat == 160 || c.toNat == 0x1680 ||
  (0x2000 ≤ c.toNat && c.toNat ≤ 0x200a) ||
  c.toNat == 0x2028 || c.toNat == 0x2029 || c.toNat == 0x202f ||
  c.toNat == 0x205f || c.toNat == 0x3000 || c.toNat == 0xfeff

/-- Line terminators: what the JS regex dot does NOT match. -/
def isLineTerm (c : Char) : Bool :=
  c.toNat == 10 || c.toNat == 13 || c.toNat == 0x2028 || c.toNat == 0x2029

/-- Case-insensitive character comparison, as the i flag canonicalises the
ASCII letters of the patterns involved. -/
def charIEq (a b : Char) : Bool :=
  a.toLower == b.toLower

/-- Models `String.prototype.trim` (strip leading and trailing whitespace). -/
def trimJS (cs : List Char) : List Char :=
  ((cs.dropWhile isSpaceJS).reverse.dropWhile isSpaceJS).reverse

/-! ## Node path.extname

For a plain directory entry name (no path separators), Node returns the
suffix from the last dot on, unless the only dot is the leading character
(hidden files) or the name is the special ".." entry. -/

/-- The extension chars from the last dot of the list on, if any dot occurs. -/
def extSplit : List Char → Option (List Char)
  | [] => none
  | c :: cs =>
    match extSplit cs with
    | some e => some e
    | none => if c == '.' then some (c :: cs) else none

/-- Models `path.extname` on a base name: the last dot of the name and what
follows it, except that a dot in leading position only, no dot at all, or
the name ".." give the empty string. -/
def extname (name : String) : String :=
  match name.toList with
  | [] => ""
  | _ :: cs =>
    match extSplit cs with
    | some e => if name == ".." then "" else String.mk e
    | none => ""

/-! ## The two regex extractions

`contents.match(/<title>(.*?)<\/title>/i)` and
`contents.match(/<meta\s+name=["']sitemap["']\s+content=["'](.*?)["']/i)`.

Both scanners try each start position left to right (leftmost match); at a
position the literals match case-insensitively, a quantified dot consumes
any character except a line terminator, and the lazy group stops at the
first point its follower matches. The patterns contain no choice point that
could backtrack differently, so the scanners compute exactly the JS match. -/

/-- Case-insensitive literal prefix test. -/
def startsWithI : List Char → List Char → Bool
  | [], _ => true
  | _ :: _, [] => false
  | p :: ps, c :: cs => charIEq p c && startsWithI ps cs

/-- Lazy scan for the closing title tag: the capture of `(.*?)<\/title>`
starting here, if the closing literal occurs before any line terminator. -/
def titleClose : List Char → Option (List Char)
  | [] => none
  | c :: cs =>
    if startsWithI "</title>".toList (c :: cs) then some []
    else if isLineTerm c then none
    else (titleClose cs).map (fun t => c :: t)

/-- Leftmost match of the title pattern: the captured inner text of the
first opening title literal that a closing literal follows on the same
line. -/
def titleScan : List Char → Option (List Char)
  | [] => none
  | c :: cs =>
    if startsWithI "<title>".toList (c :: cs) then
      match titleClose ((c :: cs).drop 7) with
      | some cap => some cap
      | none => titleScan cs
    else titleScan cs

/-- Greedy run of one or more whitespace characters (the regex `\s+`); its
follower in the pattern is a letter, so greediness never backtracks. -/
def skipSpaces1 : List Char → Option (List Char)
  | [] => none
  | c :: cs =>
    if isSpaceJS c then some (cs.dropWhile isSpaceJS) else none

/-- Quote character class of the pattern. -/
def isQuote (c : Char) : Bool :=
  c == '"' || c == '\''

/-- Lazy capture of `(.*?)["']`: everything up to the first quote character,
failing on a line terminator first. -/
def lazyToQuote : List Char → Option (List Char)
  | [] => none
  | c :: cs =>
    if isQuote c then some []
    else if isLineTerm c then none
    else (lazyToQuote cs).map (fun t => c :: t)

/-- The sitemap pattern matched at one fixed start position. -/
def sitemapMatchAt (cs : List Char) : Option (List Char) :=
  if startsWithI "<meta".toList cs then
    match skipSpaces1 (cs.drop 5) with
    | none => none
    | some cs1 =>
      if startsWithI "name=".toList cs1 then
        match cs1.drop 5 with
        | [] => none
        | q1 :: cs2 =>
          if isQuote q1 then
            if startsWithI "sitemap".toList cs2 then
              match cs2.drop 7 with
              | [] => none
              | q2 :: cs3 =>
                if isQuote q2 then
                  match skipSpaces1 cs3 with
                  | none => none
                  | some cs4 =>
                    if startsWithI "content=".toList cs4 then
                      match cs4.drop 8 with
                      | [] => none
                      | q3 :: cs5 =>
                        if isQuote q3 then lazyToQuote cs5 else none
                    else none
                else none
            else none
          else none
      else none
  else none

/-- Leftmost match of the sitemap pattern over the whole contents. -/
def sitemapScan : List Char → Option (List Char)
  | [] => none
  | c :: cs =>
    match sitemapMatchAt (c :: cs) with
    | some cap => some cap
    | none => sitemapScan cs

/-! ## Category table -/

/-- The static extension to category table of the script. -/
def CATEGORY_MAP : List (String × String) :=
  [(".html", "markup"), (".css", "stylesheet"), (".js", "script"),
   (".json", "data"), (".jpg", "image"), (".jpeg", "image"),
   (".png", "image"), (".gif", "image"), (".svg", "image"),
   (".ico", "image"), (".mp3", "audio"), (".wav", "audio"),
   (".mp4", "video"), (".txt", "document"), (".md", "document"),
   (".bat", "script"), (".sh", "script")]

/-- Exact-key lookup, as a JS object property access on a dotted key. -/
def lookupExt (e : String) : List (String × String) → Option String
  | [] => none
  | (k, v) :: rest => if e == k then some v else lookupExt e rest

/-- `CATEGORY_MAP[ext] || 'unknown'`. -/
def categoryOf (e : String) : String :=
  (lookupExt e CATEGORY_MAP).getD "unknown"

/-! ## The filesystem model and the walker

A directory tree is finite and acyclic by construction (symlink cycles are
out of scope). A file carries its byte size and either its readable text
contents or `none` when reading it throws, which is the one failure the
script catches. -/

mutual

inductive FSEntry where
  | file (name : String) (size : Nat) (contents : Option String) : FSEntry
  | dir (name : String) (children : FSList) : FSEntry

inductive FSList where
  | nil : FSList
  | cons (e : FSEntry) (es : FSList) : FSList

end

/-- One output record, with the eight fields the script pushes. A JS `null`
is `none`; note the `ext` of a file is always a string (possibly empty),
only folders carry `null` there. -/
structure Record where
  name : String
  path : String
  type : String
  ext : Option String
  size : Option Nat
  title : Option String
  sitemap : Option String
  category : Option String
deriving Repr, DecidableEq

/-- The shared mutable state of a run: the output array and the three
counters, as a value accumulated in traversal order. -/
structure ScanResult where
  output : List Record
  folderCount : Nat
  fileCount : Nat
  parseWarnings : Nat
deriving Repr, DecidableEq

/-- Sequencing two stretches of the run: outputs concatenate, counters add. -/
def ScanResult.append (a b : ScanResult) : ScanResult :=
  ⟨a.output ++ b.output, a.folderCount + b.folderCount,
   a.fileCount + b.fileCount, a.parseWarnings + b.parseWarnings⟩

/-- `path.relative(projectRoot, path.join(dir, name))` for a child of the
directory whose relative path is `rel` (the scan root itself has `rel` the
empty string). The source recomputes the relative path from the absolute
one at every entry; for directory entries, whose names carry no separator
and are never the dot entries, that recomputation is exactly this
join of the relative path of the parent with the entry name. -/
def joinRel (rel name : String) : String :=
  if rel == "" then name else rel ++ "/" ++ name

/-- One character of the backslash replacement. -/
def charNorm (c : Char) : Char :=
  if c == '\\' then '/' else c

/-- The `.replace` of backslashes by forward slashes applied to every
recorded path. -/
def normSlashes (s : String) : String :=
  String.mk (s.toList.map charNorm)

/-- The record pushed for a folder entry. -/
def folderRecord (rel name : String) : Record :=
  ⟨name, normSlashes (joinRel rel name), "folder",
   none, none, none, none, none⟩

/-- Title, sitemap and the warning increment for an HTML file: on readable
contents the two regex extractions run (title trimmed if matched, sitemap
lowercased or the literal "none"); an unreadable file is the caught error
path, leaving both null and counting one warning. -/
def htmlMeta (contents : Option String) : Option String × Option String × Nat :=
  match contents with
  | some text =>
    ((titleScan text.toList).map (fun cap => String.mk (trimJS cap)),
     some (match sitemapScan text.toList with
           | some cap => lowerStr (String.mk cap)
           | none => "none"), 0)
  | none => (none, none, 1)

/-- The record pushed for a file entry, with its warning increment. -/
def fileRecord (rel name : String) (sz : Nat) (contents : Option String) :
    Record × Nat :=
  let ext := lowerStr (extname name)
  let category := categoryOf ext
  let m := if ext == ".html" then htmlMeta contents else (none, none, 0)
  (⟨name, normSlashes (joinRel rel name), "file",
    some ext, some sz, m.1, m.2.1, some category⟩, m.2.2)

/-- The body of the walk for one directory entry, given the already walked
result of its children: the folder record precedes them (pre-order). -/
def dirResult (rel name : String) (childRes : ScanResult) : ScanResult :=
  ScanResult.append ⟨[folderRecord rel name], 1, 0, 0⟩ childRes

/-- The result of the walk for one file entry. -/
def fileResult (rel name : String) (sz : Nat) (contents : Option String) :
    ScanResult :=
  ⟨[(fileRecord rel name sz contents).1], 0, 1,
   (fileRecord rel name sz contents).2⟩

mutual

/-- The recursion of `walk` on one entry of the directory at relative path
`rel`: a folder is recorded then entered before its following siblings
(depth-first pre-order); a file is recorded with its metadata. -/
def walkEntry (rel : String) : FSEntry → ScanResult
  | FSEntry.dir name ch =>
    dirResult rel name (walk (normSlashes (joinRel rel name)) ch)
  | FSEntry.file name sz contents => fileResult rel name sz contents

/-- The recursive walk over the listed children of the directory at
relative path `rel`, in listing order. -/
def walk (rel : String) : FSList → ScanResult
  | FSList.nil => ⟨[], 0, 0, 0⟩
  | FSList.cons e es => ScanResult.append (walkEntry rel e) (walk rel es)

end

/-- `walk(projectRoot)`: the whole run over the entries of the scan root,
which is itself never recorded. -/
def scan (root : FSList) : ScanResult :=
  walk "" root

/-! ## Counting entries -/

mutual

/-- Files reachable from one entry, recursively. -/
def countFilesE : FSEntry → Nat
  | FSEntry.file _ _ _ => 1
  | FSEntry.dir _ ch => countFiles ch

/-- Files reachable in a forest, recursively. -/
def countFiles : FSList → Nat
  | FSList.nil => 0
  | FSList.cons e es => countFilesE e + countFiles es

end

mutual

/-- Directories reachable from one entry, recursively. -/
def countDirsE : FSEntry → Nat
  | FSEntry.file _ _ _ => 0
  | FSEntry.dir _ ch => 1 + countDirs ch

/-- Directories reachable in a forest, recursively. -/
def countDirs : FSList → Nat
  | FSList.nil => 0
  | FSList.cons e es => countDirsE e + countDirs es

end

/-! ## Filesystem well-formedness

What a real directory listing guarantees about entry names: a name is
nonempty, contains no path separator of either convention, and is neither
of the two special entries that readdir never returns; sibling names are
pairwise distinct. -/

def wfName (s : String) : Bool :=
  s != "" && !(s.toList.contains '/') && !(s.toList.contains '\\') &&
  s != "." && s != ".."

/-- The name of one entry. -/
def entryName : FSEntry → String
  | FSEntry.file n _ _ => n
  | FSEntry.dir n _ => n

/-- The names of the immediate entries of a forest. -/
def namesOf : FSList → List String
  | FSList.nil => []
  | FSList.cons e es => entryName e :: namesOf es

mutual

/-- Well-formedness of one entry: a well-formed name, and below a
directory, well-formed children. -/
def wfEntry : FSEntry → Bool
  | FSEntry.file n _ _ => wfName n
  | FSEntry.dir n ch => wfName n && wfForest ch

/-- Well-formedness of a directory listing: every entry well-formed and the
sibling names pairwise distinct, as a real filesystem guarantees. -/
def wfForest : FSList → Bool
  | FSList.nil => true
  | FSList.cons e es =>
    wfEntry e && !((namesOf es).contains (entryName e)) && wfForest es

end

/-! ## Predicates used by the statements -/

/-- Exact prefix test on character lists. -/
def begins : List Char → List Char → Bool
  | [], _ => true
  | _ :: _, [] => false
  | p :: ps, c :: cs => p == c && begins ps cs

/-- Record path `q` lies strictly under folder path `f`: `q` extends `f`
past a slash. -/
def nestedUnder (f q : String) : Bool :=
  begins (f.toList ++ ['/']) q.toList

/-- Exact substring test. -/
def hasSub (pat : List Char) : List Char → Bool
  | [] => begins pat []
  | c :: cs => begins pat (c :: cs) || hasSub pat cs

/-- How often a case-insensitive occurrence of `pat` starts in the list. -/
def countI (pat : List Char) : List Char → Nat
  | [] => 0
  | c :: cs => (if startsWithI pat (c :: cs) then 1 else 0) + countI pat cs

/-- Case-insensitive equality of equal-length character lists. -/
def ieqL : List Char → List Char → Bool
  | [], [] => true
  | _ :: _, [] => false
  | [], _ :: _ => false
  | a :: as, b :: bs => charIEq a b && ieqL as bs

/-- Does a relative path, read as slash-separated segments, have a segment
that is exactly ".."? Padding both ends with a slash reduces the question
to one substring search. -/
def dotdotSeg (p : List Char) : Bool :=
  hasSub ('/' :: '.' :: '.' :: '/' :: []) ('/' :: (p ++ ['/']))

/-- Joining a relative directory path and a child name at the character
level: what `joinRel` does to the underlying lists. -/
def jL (a b : List Char) : List Char :=
  if a = [] then b else a ++ '/' :: b

/-- A list that is empty or starts with a slash: the possible remainders of
one subtree path past another. -/
def slashy (A : List Char) : Prop :=
  A = [] ∨ ∃ t, A = '/' :: t

/-- Path `p` lies within the subtree rooted at path `base` (it is `base`
itself or extends it past a slash). -/
def SubPath (base p : List Char) : Prop :=
  ∃ A, p = base ++ A ∧ slashy A

/-- Every folder record precedes every record whose path is nested under
its own: no record of the part of the output before a folder record is
nested under that folder. -/
def ParentFirst (l : List Record) : Prop :=
  ∀ pre r post, l = pre ++ r :: post → r.type = "folder" →
    ∀ r2 ∈ pre, ∀ t, r2.path.toList ≠ r.path.toList ++ '/' :: t

/-! ## Generic list toolkit -/

/-- Two splittings of one list: the shorter prefix is a prefix of the
longer, and the middle piece carries over. -/
theorem sub_decomp {α : Type} : ∀ (a₁ b₁ a₂ b₂ : List α),
    a₁ ++ b₁ = a₂ ++ b₂ → a₁.length ≤ a₂.length →
    ∃ m, a₂ = a₁ ++ m ∧ b₁ = m ++ b₂
  | [], b₁, a₂, b₂, h, _ => ⟨a₂, rfl, h⟩
  | _ :: _, _, [], _, h, hle => by simp at hle
  | c :: a₁, b₁, d :: a₂, b₂, h, hle => by
    simp only [List.cons_append, List.cons.injEq] at h
    obtain ⟨rfl, h2⟩ := h
    simp only [List.length_cons, Nat.succ_le_succ_iff] at hle
    obtain ⟨m, rfl, hb⟩ := sub_decomp a₁ b₁ a₂ b₂ h2 hle
    exact ⟨m, by simp, hb⟩

/-! ## Record counting: one record per reachable entry -/

mutual

theorem walkEntry_counts : ∀ (rel : String) (e : FSEntry),
    (walkEntry rel e).output.length = countFilesE e + countDirsE e ∧
    (walkEntry rel e).fileCount = countFilesE e ∧
    (walkEntry rel e).folderCount = countDirsE e
  | rel, FSEntry.file n sz c => by
    simp [walkEntry, fileResult, countFilesE, countDirsE]
  | rel, FSEntry.dir n ch => by
    have ih := walk_counts (normSlashes (joinRel rel n)) ch
    simp only [walkEntry, dirResult, ScanResult.append, countFilesE,
      countDirsE, List.length_append, List.length_cons, List.length_nil]
    omega

theorem walk_counts : ∀ (rel : String) (es : FSList),
    (walk rel es).output.length = countFiles es + countDirs es ∧
    (walk rel es).fileCount = countFiles es ∧
    (walk rel es).folderCount = countDirs es
  | rel, FSList.nil => by simp [walk, countFiles, countDirs]
  | rel, FSList.cons e es => by
    have ih1 := walkEntry_counts rel e
    have ih2 := walk_counts rel es
    simp only [walk, ScanResult.append, countFiles, countDirs,
      List.length_append]
    omega

end

/-! ## String and list bridges -/

theorem toList_mk (l : List Char) : (String.mk l).toList = l := rfl

theorem toList_append (s t : String) : (s ++ t).toList = s.toList ++ t.toList := rfl

theorem str_ext {s t : String} (h : s.toList = t.toList) : s = t := by
  cases s; cases t; simp only [String.toList] at h; simp [h]

theorem str_empty_iff (s : String) : s = "" ↔ s.toList = [] := by
  cases s; simp [String.ext_iff]

theorem begins_iff (p l : List Char) : begins p l = true ↔ ∃ t, l = p ++ t := by
  induction p generalizing l with
  | nil => simp [begins]
  | cons c ps ih =>
    cases l with
    | nil => simp [begins]
    | cons d ls =>
      simp only [begins, Bool.and_eq_true, beq_iff_eq, ih, List.cons_append,
        List.cons.injEq]
      constructor
      · rintro ⟨rfl, t, rfl⟩; exact ⟨t, rfl, rfl⟩
      · rintro ⟨t, rfl, rfl⟩; exact ⟨rfl, t, rfl⟩

theorem hasSub_iff (pat l : List Char) :
    hasSub pat l = true ↔ ∃ x y, l = x ++ pat ++ y := by
  induction l with
  | nil =>
    simp only [hasSub, begins_iff]
    constructor
    · rintro ⟨t, ht⟩; exact ⟨[], t, by simpa using ht⟩
    · rintro ⟨x, y, h⟩
      rcases x with _ | ⟨c, x⟩
      · exact ⟨y, by simpa using h⟩
      · simp at h
  | cons c cs ih =>
    simp only [hasSub, Bool.or_eq_true, begins_iff, ih]
    constructor
    · rintro (⟨t, ht⟩ | ⟨x, y, rfl⟩)
      · exact ⟨[], t, by simpa using ht⟩
      · exact ⟨c :: x, y, by simp⟩
    · rintro ⟨x, y, h⟩
      rcases x with _ | ⟨d, x⟩
      · exact Or.inl ⟨y, by simpa using h⟩
      · simp only [List.cons_append, List.cons.injEq] at h
        exact Or.inr ⟨x, y, by simp [h.1, h.2]⟩

theorem ieqL_length : ∀ (a b : List Char), ieqL a b = true → a.length = b.length
  | [], [], _ => rfl
  | _ :: _, [], h => by simp [ieqL] at h
  | [], _ :: _, h => by simp [ieqL] at h
  | a :: as, b :: bs, h => by
    simp only [ieqL, Bool.and_eq_true] at h
    simp [ieqL_length as bs h.2]

theorem startsWithI_iff (p cs : List Char) :
    startsWithI p cs = true ↔ ∃ a b, cs = a ++ b ∧ ieqL p a = true := by
  induction p generalizing cs with
  | nil =>
    constructor
    · intro _; exact ⟨[], cs, rfl, rfl⟩
    · intro _; rfl
  | cons q ps ih =>
    cases cs with
    | nil =>
      constructor
      · intro h; simp [startsWithI] at h
      · rintro ⟨a, b, h, ha⟩
        rcases a with _ | ⟨c, a⟩
        · simp [ieqL] at ha
        · simp at h
    | cons c cs =>
      simp only [startsWithI, Bool.and_eq_true, ih]
      constructor
      · rintro ⟨hc, a, b, rfl, ha⟩
        exact ⟨c :: a, b, rfl, by simp only [ieqL, Bool.and_eq_true]; exact ⟨hc, ha⟩⟩
      · rintro ⟨a, b, h, ha⟩
        rcases a with _ | ⟨d, a⟩
        · simp [ieqL] at ha
        · simp only [List.cons_append, List.cons.injEq] at h
          obtain ⟨rfl, rfl⟩ := h
          simp only [ieqL, Bool.and_eq_true] at ha
          exact ⟨ha.1, a, b, rfl, ha.2⟩

theorem wfName_spec (n : String) (h : wfName n = true) :
    n.toList ≠ [] ∧ ¬ '/' ∈ n.toList ∧ ¬ '\\' ∈ n.toList ∧
      n ≠ "." ∧ n ≠ ".." := by
  simp only [wfName, Bool.and_eq_true] at h
  obtain ⟨⟨⟨⟨h1, h2⟩, h3⟩, h4⟩, h5⟩ := h
  refine ⟨?_, by simpa using h2, by simpa using h3,
    by simpa using h4, by simpa using h5⟩
  intro hl
  exact (by simpa using h1 : ¬ n = "") ((str_empty_iff n).2 hl)

/-! ## Unfolding helpers for the walker -/

theorem append_output (a b : ScanResult) :
    (ScanResult.append a b).output = a.output ++ b.output := rfl

theorem walkEntry_file_output (rel n : String) (sz : Nat) (c : Option String) :
    (walkEntry rel (FSEntry.file n sz c)).output = [(fileRecord rel n sz c).1] := rfl

theorem walkEntry_dir_output (rel n : String) (ch : FSList) :
    (walkEntry rel (FSEntry.dir n ch)).output =
      folderRecord rel n :: (walk (normSlashes (joinRel rel n)) ch).output := rfl

theorem walk_cons_output (rel : String) (e : FSEntry) (es : FSList) :
    (walk rel (FSList.cons e es)).output =
      (walkEntry rel e).output ++ (walk rel es).output := rfl

theorem wfForest_spec (e : FSEntry) (es : FSList)
    (h : wfForest (FSList.cons e es) = true) :
    wfEntry e = true ∧ ¬ entryName e ∈ namesOf es ∧ wfForest es = true := by
  simp only [wfForest, Bool.and_eq_true] at h
  exact ⟨h.1.1, by simpa using h.1.2, h.2⟩

theorem wfEntry_name (e : FSEntry) (h : wfEntry e = true) :
    wfName (entryName e) = true := by
  cases e with
  | file n sz c => exact h
  | dir n ch =>
    simp only [wfEntry, Bool.and_eq_true] at h
    exact h.1

theorem wfEntry_children (n : String) (ch : FSList)
    (h : wfEntry (FSEntry.dir n ch) = true) : wfForest ch = true := by
  simp only [wfEntry, Bool.and_eq_true] at h
  exact h.2

/-! ## Path joining under well-formed names -/

theorem charNorm_of_ne (c : Char) (h : ¬ c = '\\') : charNorm c = c := by
  simp [charNorm, h]

theorem map_charNorm_id (cs : List Char) (h : ¬ '\\' ∈ cs) :
    cs.map charNorm = cs := by
  induction cs with
  | nil => rfl
  | cons c cs ih =>
    simp only [List.mem_cons, not_or] at h
    simp [charNorm_of_ne c (fun hc => h.1 hc.symm), ih h.2]

theorem joinRel_toList (rel n : String) :
    (joinRel rel n).toList = jL rel.toList n.toList := by
  unfold joinRel jL
  by_cases h : rel = ""
  · subst h; simp
  · have hb : (rel == "") = false := by simpa using h
    have hl : ¬ rel.toList = [] := fun hl => h ((str_empty_iff rel).2 hl)
    rw [hb, if_neg hl]
    show (rel ++ "/" ++ n).toList = rel.toList ++ '/' :: n.toList
    rw [toList_append, toList_append]
    have hs : ("/" : String).toList = ['/'] := rfl
    rw [hs, List.append_assoc]
    rfl

theorem pathJ (rel n : String) (hrel : ¬ '\\' ∈ rel.toList)
    (hn : wfName n = true) :
    (normSlashes (joinRel rel n)).toList = jL rel.toList n.toList := by
  obtain ⟨-, -, hnb, -, -⟩ := wfName_spec n hn
  show ((joinRel rel n).toList.map charNorm) = _
  rw [joinRel_toList]
  by_cases h : rel.toList = []
  · simp only [jL, if_pos h]
    exact map_charNorm_id _ hnb
  · simp only [jL, if_neg h]
    apply map_charNorm_id
    intro hm
    rcases List.mem_append.1 hm with hm | hm
    · exact hrel hm
    · rcases List.mem_cons.1 hm with hm | hm
      · exact absurd hm.symm (by decide)
      · exact hnb hm

theorem jL_ne_nil (a : List Char) (n : String) (hn : wfName n = true) :
    jL a n.toList ≠ [] := by
  obtain ⟨h1, -, -, -, -⟩ := wfName_spec n hn
  by_cases h : a = []
  · simp only [jL, if_pos h]; exact h1
  · simp only [jL, if_neg h]; simp [h]

theorem noBS_jL (rel : String) (n : String) (hrel : ¬ '\\' ∈ rel.toList)
    (hn : wfName n = true) : ¬ '\\' ∈ jL rel.toList n.toList := by
  obtain ⟨-, -, hnb, -, -⟩ := wfName_spec n hn
  by_cases h : rel.toList = []
  · simp only [jL, if_pos h]; exact hnb
  · simp only [jL, if_neg h]
    intro hm
    rcases List.mem_append.1 hm with hm | hm
    · exact hrel hm
    · rcases List.mem_cons.1 hm with hm | hm
      · exact absurd hm.symm (by decide)
      · exact hnb hm

theorem subPath_self (base : List Char) : SubPath base base :=
  ⟨[], by simp, Or.inl rfl⟩

theorem subPath_through (base mid p : List Char)
    (h : SubPath (base ++ '/' :: mid) p) : SubPath base p := by
  obtain ⟨A, rfl, -⟩ := h
  exact ⟨'/' :: (mid ++ A), by simp, Or.inr ⟨mid ++ A, rfl⟩⟩

theorem subPath_length (base p : List Char) (h : SubPath base p) :
    base.length ≤ p.length := by
  obtain ⟨A, rfl, -⟩ := h
  simp

/-! ## Disjointness of sibling subtrees -/

theorem name_align_le (n n' A B : List Char) (hn' : ¬ '/' ∈ n')
    (hA : slashy A) (h : n ++ A = n' ++ B) (hle : n.length ≤ n'.length) :
    n = n' ∧ A = B := by
  obtain ⟨m, rfl, hAm⟩ := sub_decomp n A n' B h hle
  cases m with
  | nil => exact ⟨by simp, by simpa using hAm⟩
  | cons c m =>
    exfalso
    rcases hA with hA | ⟨t, hA⟩
    · subst hA; simp at hAm
    · subst hA
      simp only [List.cons_append, List.cons.injEq] at hAm
      apply hn'
      rw [← hAm.1]
      exact List.mem_append_right _ (List.mem_cons_self _ _)

theorem name_align (n n' A B : List Char) (hn : ¬ '/' ∈ n)
    (hn' : ¬ '/' ∈ n') (hA : slashy A) (hB : slashy B)
    (h : n ++ A = n' ++ B) : n = n' ∧ A = B := by
  rcases Nat.le_total n.length n'.length with hle | hle
  · exact name_align_le n n' A B hn' hA h hle
  · obtain ⟨h1, h2⟩ := name_align_le n' n B A hn hB h.symm hle
    exact ⟨h1.symm, h2.symm⟩

theorem jL_cancel (R a b X Y : List Char)
    (h : jL R a ++ X = jL R b ++ Y) : a ++ X = b ++ Y := by
  by_cases hR : R = []
  · simp only [jL, if_pos hR] at h
    exact h
  · simp only [jL, if_neg hR] at h
    simp only [List.append_assoc, List.cons_append] at h
    have h2 := List.append_cancel_left h
    simpa using h2

theorem subtree_disjoint (R nL nL2 X Y : List Char) (hn : ¬ '/' ∈ nL)
    (hn2 : ¬ '/' ∈ nL2) (hne : ¬ nL = nL2) (hX : slashy X) (hY : slashy Y) :
    ¬ (jL R nL ++ X = jL R nL2 ++ Y) := fun h =>
  hne (name_align nL nL2 X Y hn hn2 hX hY (jL_cancel R nL nL2 X Y h)).1

/-! ## Where the paths of emitted records live -/

theorem fileRecord_path (rel n : String) (sz : Nat) (c : Option String) :
    ((fileRecord rel n sz c).1).path = normSlashes (joinRel rel n) := rfl

theorem folderRecord_path (rel n : String) :
    (folderRecord rel n).path = normSlashes (joinRel rel n) := rfl

theorem jL_of_ne (a b : List Char) (h : ¬ a = []) :
    jL a b = a ++ '/' :: b := by
  simp only [jL, if_neg h]

mutual

theorem walkEntry_shape : ∀ (rel : String) (e : FSEntry),
    wfEntry e = true → ¬ '\\' ∈ rel.toList →
    ∀ r ∈ (walkEntry rel e).output,
      SubPath (jL rel.toList (entryName e).toList) r.path.toList
  | rel, FSEntry.file n sz c, hwf, hrel => by
    intro r hr
    rw [walkEntry_file_output] at hr
    have hn : wfName n = true := hwf
    rcases List.mem_singleton.1 hr with rfl
    rw [fileRecord_path]
    show SubPath (jL rel.toList n.toList) (normSlashes (joinRel rel n)).toList
    rw [pathJ rel n hrel hn]
    exact subPath_self _
  | rel, FSEntry.dir n ch, hwf, hrel => by
    intro r hr
    rw [walkEntry_dir_output] at hr
    have hn : wfName n = true := wfEntry_name _ hwf
    have hch : wfForest ch = true := wfEntry_children n ch hwf
    rcases List.mem_cons.1 hr with rfl | hr
    · rw [folderRecord_path]
      show SubPath (jL rel.toList n.toList) (normSlashes (joinRel rel n)).toList
      rw [pathJ rel n hrel hn]
      exact subPath_self _
    · have hrel2 : ¬ '\\' ∈ (normSlashes (joinRel rel n)).toList := by
        rw [pathJ rel n hrel hn]; exact noBS_jL rel n hrel hn
      obtain ⟨m, hm, hmw, hsp⟩ :=
        walk_shape (normSlashes (joinRel rel n)) ch hch hrel2 r hr
      rw [pathJ rel n hrel hn] at hsp
      rw [jL_of_ne _ _ (jL_ne_nil rel.toList n hn)] at hsp
      exact subPath_through _ _ _ hsp

theorem walk_shape : ∀ (rel : String) (es : FSList),
    wfForest es = true → ¬ '\\' ∈ rel.toList →
    ∀ r ∈ (walk rel es).output, ∃ nm, nm ∈ namesOf es ∧ wfName nm = true ∧
      SubPath (jL rel.toList nm.toList) r.path.toList
  | rel, FSList.nil, _, _ => by
    intro r hr
    simp [walk] at hr
  | rel, FSList.cons e es, hwf, hrel => by
    obtain ⟨he, hnm, hes⟩ := wfForest_spec e es hwf
    intro r hr
    rw [walk_cons_output] at hr
    rcases List.mem_append.1 hr with hr | hr
    · exact ⟨entryName e, by simp [namesOf], wfEntry_name e he,
        walkEntry_shape rel e he hrel r hr⟩
    · obtain ⟨nm, h1, h2, h3⟩ := walk_shape rel es hes hrel r hr
      exact ⟨nm, by simp [namesOf, h1], h2, h3⟩

end

/-! ## Parent-before-descendant ordering -/

theorem parentFirst_nil : ParentFirst [] := by
  intro pre r post h
  exact absurd h (by simp)

theorem parentFirst_cons_head (h : Record) (l : List Record)
    (hl : ParentFirst l)
    (hhead : ∀ r ∈ l, ∀ t, ¬ h.path.toList = r.path.toList ++ '/' :: t) :
    ParentFirst (h :: l) := by
  intro pre r post heq htype r2 hr2 t
  cases pre with
  | nil => simp at hr2
  | cons a pre =>
    simp only [List.cons_append, List.cons.injEq] at heq
    obtain ⟨rfl, heq2⟩ := heq
    rcases List.mem_cons.1 hr2 with rfl | hr2
    · exact hhead r
        (by rw [heq2]; exact List.mem_append_right _ (List.mem_cons_self _ _)) t
    · exact hl pre r post heq2 htype r2 hr2 t

theorem parentFirst_single (r : Record) : ParentFirst [r] := by
  apply parentFirst_cons_head r [] parentFirst_nil
  intro r2 hr2
  simp at hr2

theorem parentFirst_append (A B : List Record) (hA : ParentFirst A)
    (hB : ParentFirst B)
    (hcross : ∀ rb ∈ B, ∀ ra ∈ A, ∀ t,
      ¬ ra.path.toList = rb.path.toList ++ '/' :: t) :
    ParentFirst (A ++ B) := by
  intro pre r post heq htype r2 hr2 t
  rcases Nat.lt_or_ge pre.length A.length with hlt | hge
  · obtain ⟨m, hA2, hmB⟩ :=
      sub_decomp pre (r :: post) A B heq.symm (Nat.le_of_lt hlt)
    cases m with
    | nil =>
      exfalso
      rw [hA2] at hlt
      simp at hlt
    | cons x m =>
      simp only [List.cons_append, List.cons.injEq] at hmB
      obtain ⟨rfl, hpost⟩ := hmB
      exact hA pre r m (by rw [hA2]) htype r2 hr2 t
  · obtain ⟨m, hpre, hBm⟩ := sub_decomp A B pre (r :: post) heq hge
    have hrB : r ∈ B := by
      rw [hBm]; exact List.mem_append_right _ (List.mem_cons_self _ _)
    rw [hpre] at hr2
    rcases List.mem_append.1 hr2 with h2 | h2
    · exact hcross r hrB r2 h2 t
    · exact hB m r post hBm htype r2 h2 t

theorem slashy_snoc (Y : List Char) (t : List Char) (hY : slashy Y) :
    slashy (Y ++ '/' :: t) := by
  rcases hY with rfl | ⟨y, rfl⟩
  · exact Or.inr ⟨t, rfl⟩
  · exact Or.inr ⟨y ++ '/' :: t, rfl⟩

theorem names_toList_ne (a b : String) (h : ¬ a = b) :
    ¬ a.toList = b.toList := fun hl => h (str_ext hl)

mutual

theorem walkEntry_PF : ∀ (rel : String) (e : FSEntry),
    wfEntry e = true → ¬ '\\' ∈ rel.toList →
    ParentFirst (walkEntry rel e).output
  | rel, FSEntry.file n sz c, hwf, hrel => by
    rw [walkEntry_file_output]
    exact parentFirst_single _
  | rel, FSEntry.dir n ch, hwf, hrel => by
    rw [walkEntry_dir_output]
    have hn : wfName n = true := wfEntry_name _ hwf
    have hch : wfForest ch = true := wfEntry_children n ch hwf
    have hrel2 : ¬ '\\' ∈ (normSlashes (joinRel rel n)).toList := by
      rw [pathJ rel n hrel hn]; exact noBS_jL rel n hrel hn
    apply parentFirst_cons_head
    · exact walk_PF _ ch hch hrel2
    · intro r hr t heqpath
      obtain ⟨m, hm, hmw, hsp⟩ := walk_shape _ ch hch hrel2 r hr
      rw [pathJ rel n hrel hn] at hsp
      rw [jL_of_ne _ _ (jL_ne_nil rel.toList n hn)] at hsp
      have hlen := subPath_length _ _ hsp
      rw [folderRecord_path] at heqpath
      have hPj : (normSlashes (joinRel rel n)).toList = jL rel.toList n.toList :=
        pathJ rel n hrel hn
      rw [hPj] at heqpath
      have h1 : (jL rel.toList n.toList).length =
          r.path.toList.length + 1 + t.length := by
        rw [heqpath]; simp [List.length_append]; omega
      simp only [List.length_append, List.length_cons] at hlen
      omega

theorem walk_PF : ∀ (rel : String) (es : FSList),
    wfForest es = true → ¬ '\\' ∈ rel.toList →
    ParentFirst (walk rel es).output
  | rel, FSList.nil, _, _ => by
    show ParentFirst []
    exact parentFirst_nil
  | rel, FSList.cons e es, hwf, hrel => by
    obtain ⟨he, hnm, hes⟩ := wfForest_spec e es hwf
    rw [walk_cons_output]
    apply parentFirst_append
    · exact walkEntry_PF rel e he hrel
    · exact walk_PF rel es hes hrel
    · intro rb hrb ra hra t heqpath
      obtain ⟨nmb, hb1, hb2, hb3⟩ := walk_shape rel es hes hrel rb hrb
      obtain ⟨X, hXeq, hXs⟩ := walkEntry_shape rel e he hrel ra hra
      obtain ⟨Y, hYeq, hYs⟩ := hb3
      have hdot : '/' ∉ (entryName e).toList :=
        (wfName_spec _ (wfEntry_name e he)).2.1
      have hdot2 : '/' ∉ nmb.toList := (wfName_spec _ hb2).2.1
      have hne : ¬ (entryName e).toList = nmb.toList :=
        names_toList_ne _ _ (fun hq => hnm (hq ▸ hb1))
      apply subtree_disjoint rel.toList (entryName e).toList nmb.toList
        X (Y ++ '/' :: t) hdot hdot2 hne hXs (slashy_snoc Y t hYs)
      rw [← hXeq, heqpath, hYeq, List.append_assoc]

end

theorem parentFirst_index (l : List Record) (hPF : ParentFirst l)
    (i j : Nat) (hi : i < l.length) (hj : j < l.length)
    (htype : (l.get ⟨i, hi⟩).type = "folder")
    (hnest : nestedUnder (l.get ⟨i, hi⟩).path (l.get ⟨j, hj⟩).path = true) :
    i < j := by
  obtain ⟨t, ht⟩ := (begins_iff _ _).1 hnest
  by_contra hij
  push_neg at hij
  rcases Nat.lt_or_ge j i with hji | hji
  · have hdecomp : l = l.take i ++ l.get ⟨i, hi⟩ :: l.drop (i + 1) := by
      rw [← List.drop_eq_get_cons hi, List.take_append_drop]
    have h2 : j < (l.take i).length := by
      simp [List.length_take]; omega
    have h3 : (l.take i).get ⟨j, h2⟩ = l.get ⟨j, hj⟩ := by
      simp [List.get_take]
    have hmem : l.get ⟨j, hj⟩ ∈ l.take i := by
      rw [← h3]; exact List.get_mem _ _ _
    apply hPF (l.take i) (l.get ⟨i, hi⟩) (l.drop (i + 1)) hdecomp htype
      (l.get ⟨j, hj⟩) hmem t
    rw [ht, List.append_assoc]
    rfl
  · have hii : i = j := Nat.le_antisymm hji hij
    subst hii
    have hlen := congrArg List.length ht
    simp [List.length_append] at hlen

/-- C1: completeness — scanning any directory forest emits exactly one
record per reachable entry: the output length is F + D where F counts the
files and D the directories reachable from the root, the file and folder
counters agreeing; the root itself is never recorded since the walk begins
at the children of the root. -/
theorem claim_C1 (es : FSList) :
    (scan es).output.length = countFiles es + countDirs es ∧
    (scan es).fileCount = countFiles es ∧
    (scan es).folderCount = countDirs es :=
  walk_counts "" es

/-- C2: ordering — in the output of a scan of a well-formed directory tree
(sibling names distinct, as a real directory listing guarantees), whenever
the record at index i is a folder and the record at index j has a path
nested under that folder path, the folder record precedes: i < j. -/
theorem claim_C2 (root : FSList) (hwf : wfForest root = true)
    (i j : Nat) (hi : i < (scan root).output.length)
    (hj : j < (scan root).output.length)
    (htype : ((scan root).output.get ⟨i, hi⟩).type = "folder")
    (hnest : nestedUnder ((scan root).output.get ⟨i, hi⟩).path
      ((scan root).output.get ⟨j, hj⟩).path = true) :
    i < j :=
  parentFirst_index _ (walk_PF "" root hwf (by decide)) i j hi hj htype hnest

theorem claim_C2_witness :
    wfForest (FSList.cons (FSEntry.dir "a"
      (FSList.cons (FSEntry.file "b.txt" 1 none) FSList.nil)) FSList.nil) = true ∧
    (0 : Nat) < 1 :=
  ⟨by decide, claim_C2 (FSList.cons (FSEntry.dir "a"
      (FSList.cons (FSEntry.file "b.txt" 1 none) FSList.nil)) FSList.nil)
    (by decide) 0 1 (by decide) (by decide) (by decide) (by decide)⟩

/-! ## No two records share a path -/

mutual

theorem walkEntry_nodup : ∀ (rel : String) (e : FSEntry),
    wfEntry e = true → ¬ '\\' ∈ rel.toList →
    ((walkEntry rel e).output.map (fun r => r.path)).Nodup
  | rel, FSEntry.file n sz c, hwf, hrel => by
    rw [walkEntry_file_output]
    simp
  | rel, FSEntry.dir n ch, hwf, hrel => by
    rw [walkEntry_dir_output]
    have hn : wfName n = true := wfEntry_name _ hwf
    have hch : wfForest ch = true := wfEntry_children n ch hwf
    have hrel2 : ¬ '\\' ∈ (normSlashes (joinRel rel n)).toList := by
      rw [pathJ rel n hrel hn]; exact noBS_jL rel n hrel hn
    simp only [List.map_cons, List.nodup_cons]
    constructor
    · intro hmem
      obtain ⟨r, hr, hrp⟩ := List.mem_map.1 hmem
      obtain ⟨m, hm, hmw, hsp⟩ := walk_shape _ ch hch hrel2 r hr
      rw [pathJ rel n hrel hn, jL_of_ne _ _ (jL_ne_nil rel.toList n hn)] at hsp
      have hlen := subPath_length _ _ hsp
      have heq2 : r.path.toList = jL rel.toList n.toList := by
        rw [congrArg String.toList hrp, folderRecord_path]
        exact pathJ rel n hrel hn
      rw [heq2] at hlen
      simp [List.length_append] at hlen
    · exact walk_nodup _ ch hch hrel2

theorem walk_nodup : ∀ (rel : String) (es : FSList),
    wfForest es = true → ¬ '\\' ∈ rel.toList →
    ((walk rel es).output.map (fun r => r.path)).Nodup
  | rel, FSList.nil, _, _ => by
    show List.Nodup (List.map _ [])
    simp
  | rel, FSList.cons e es, hwf, hrel => by
    obtain ⟨he, hnm, hes⟩ := wfForest_spec e es hwf
    rw [walk_cons_output, List.map_append, List.nodup_append]
    refine ⟨walkEntry_nodup rel e he hrel, walk_nodup rel es hes hrel, ?_⟩
    intro p hpA hpB
    obtain ⟨ra, hra, hrap⟩ := List.mem_map.1 hpA
    obtain ⟨rb, hrb, hrbp⟩ := List.mem_map.1 hpB
    obtain ⟨X, hXeq, hXs⟩ := walkEntry_shape rel e he hrel ra hra
    obtain ⟨nmb, hb1, hb2, hb3⟩ := walk_shape rel es hes hrel rb hrb
    obtain ⟨Y, hYeq, hYs⟩ := hb3
    have hdot : '/' ∉ (entryName e).toList :=
      (wfName_spec _ (wfEntry_name e he)).2.1
    have hdot2 : '/' ∉ nmb.toList := (wfName_spec _ hb2).2.1
    have hne : ¬ (entryName e).toList = nmb.toList :=
      names_toList_ne _ _ (fun hq => hnm (hq ▸ hb1))
    apply subtree_disjoint rel.toList (entryName e).toList nmb.toList
      X Y hdot hdot2 hne hXs hYs
    rw [← hXeq, ← hYeq, hrap, hrbp]

end

/-- C8: unique visit — on a well-formed tree (the model is acyclic by
construction, and sibling names are distinct as on a real filesystem) the
walk emits one record per reachable entry and no two records of the output
share a path. -/
theorem claim_C8 (root : FSList) (hwf : wfForest root = true) :
    ((scan root).output.map (fun r => r.path)).Nodup ∧
    (scan root).output.length = countFiles root + countDirs root :=
  ⟨walk_nodup "" root hwf (by decide), (walk_counts "" root).1⟩

theorem claim_C8_witness :
    wfForest (FSList.cons (FSEntry.dir "docs"
      (FSList.cons (FSEntry.file "a.txt" 1 none)
        (FSList.cons (FSEntry.file "b.txt" 2 none) FSList.nil))) FSList.nil) = true ∧
    (((scan (FSList.cons (FSEntry.dir "docs"
      (FSList.cons (FSEntry.file "a.txt" 1 none)
        (FSList.cons (FSEntry.file "b.txt" 2 none) FSList.nil))) FSList.nil)).output.map
        (fun r => r.path)).Nodup ∧
      (scan (FSList.cons (FSEntry.dir "docs"
        (FSList.cons (FSEntry.file "a.txt" 1 none)
          (FSList.cons (FSEntry.file "b.txt" 2 none) FSList.nil))) FSList.nil)).output.length =
        countFiles (FSList.cons (FSEntry.dir "docs"
          (FSList.cons (FSEntry.file "a.txt" 1 none)
            (FSList.cons (FSEntry.file "b.txt" 2 none) FSList.nil))) FSList.nil) +
        countDirs (FSList.cons (FSEntry.dir "docs"
          (FSList.cons (FSEntry.file "a.txt" 1 none)
            (FSList.cons (FSEntry.file "b.txt" 2 none) FSList.nil))) FSList.nil)) :=
  ⟨by decide, claim_C8 (FSList.cons (FSEntry.dir "docs"
    (FSList.cons (FSEntry.file "a.txt" 1 none)
      (FSList.cons (FSEntry.file "b.txt" 2 none) FSList.nil))) FSList.nil) (by decide)⟩

/-- C3: isolated failure — an .html file whose contents cannot be read is
caught locally: the walk continues with the following entries, the warning
counter rises by exactly one, and a record is still emitted with type file,
the computed extension, size and category markup, and title and sitemap
null; in the total model no exception can propagate. -/
theorem claim_C3 (rel name : String) (sz : Nat) (es : FSList)
    (hext : lowerStr (extname name) = ".html") :
    (walk rel (FSList.cons (FSEntry.file name sz none) es)).output =
      ⟨name, normSlashes (joinRel rel name), "file", some ".html", some sz,
        none, none, some "markup"⟩ :: (walk rel es).output ∧
    (walk rel (FSList.cons (FSEntry.file name sz none) es)).parseWarnings =
      1 + (walk rel es).parseWarnings ∧
    (walk rel (FSList.cons (FSEntry.file name sz none) es)).fileCount =
      1 + (walk rel es).fileCount ∧
    (walk rel (FSList.cons (FSEntry.file name sz none) es)).folderCount =
      (walk rel es).folderCount := by
  simp only [walk, walkEntry, fileResult, fileRecord, hext, htmlMeta,
    ScanResult.append, categoryOf, lookupExt, CATEGORY_MAP]
  simp

theorem claim_C3_witness :
    lowerStr (extname "broken.html") = ".html" ∧
    ((walk "" (FSList.cons (FSEntry.file "broken.html" 5 none) FSList.nil)).output =
      ⟨"broken.html", normSlashes (joinRel "" "broken.html"), "file",
        some ".html", some 5, none, none, some "markup"⟩ ::
        (walk "" FSList.nil).output ∧
    (walk "" (FSList.cons (FSEntry.file "broken.html" 5 none) FSList.nil)).parseWarnings =
      1 + (walk "" FSList.nil).parseWarnings ∧
    (walk "" (FSList.cons (FSEntry.file "broken.html" 5 none) FSList.nil)).fileCount =
      1 + (walk "" FSList.nil).fileCount ∧
    (walk "" (FSList.cons (FSEntry.file "broken.html" 5 none) FSList.nil)).folderCount =
      (walk "" FSList.nil).folderCount) :=
  ⟨by decide, claim_C3 "" "broken.html" 5 FSList.nil (by decide)⟩

/-- C4: HTML extraction — for a readable file whose lowercased extension is
.html, the emitted record carries as title the trimmed capture of the first
matched title pair (null when no pair matches) and as sitemap the
lowercased capture of the sitemap meta pattern, or the literal "none" when
that pattern matches nowhere; the warning counter does not move. -/
theorem claim_C4 (rel name : String) (sz : Nat) (text : String) (es : FSList)
    (hext : lowerStr (extname name) = ".html") :
    (walk rel (FSList.cons (FSEntry.file name sz (some text)) es)).output =
      ⟨name, normSlashes (joinRel rel name), "file", some ".html", some sz,
        (titleScan text.toList).map (fun cap => String.mk (trimJS cap)),
        some (match sitemapScan text.toList with
              | some cap => lowerStr (String.mk cap)
              | none => "none"),
        some "markup"⟩ :: (walk rel es).output ∧
    (walk rel (FSList.cons (FSEntry.file name sz (some text)) es)).parseWarnings =
      (walk rel es).parseWarnings := by
  simp only [walk, walkEntry, fileResult, fileRecord, hext, htmlMeta,
    ScanResult.append, categoryOf, lookupExt, CATEGORY_MAP]
  simp

theorem claim_C4_witness :
    lowerStr (extname "a.html") = ".html" ∧
    (walk "" (FSList.cons (FSEntry.file "a.html" 7
      (some "<title>Hello</title><meta name=\"sitemap\" content=\"Exclude\">"))
      FSList.nil)).output =
      [⟨"a.html", "a.html", "file", some ".html", some 7,
        some "Hello", some "exclude", some "markup"⟩] := by
  have h := claim_C4 "" "a.html" 7
    "<title>Hello</title><meta name=\"sitemap\" content=\"Exclude\">"
    FSList.nil (by decide)
  refine ⟨by decide, ?_⟩
  rw [h.1]
  decide

/-! ## Category and extension facts -/

theorem lookupExt_some_mem (e : String) :
    ∀ (m : List (String × String)) (v : String),
    lookupExt e m = some v → e ∈ m.map Prod.fst
  | [], v, h => by simp [lookupExt] at h
  | (k, w) :: rest, v, h => by
    simp only [lookupExt] at h
    by_cases hek : (e == k) = true
    · simp [eq_of_beq hek]
    · rw [if_neg (by simpa using hek)] at h
      simp only [List.map_cons, List.mem_cons]
      exact Or.inr (lookupExt_some_mem e rest v h)

/-- C5: classification — a file record carries exactly the category the
static table assigns to its lowercased extension, any extension outside the
table falls to unknown, folder records carry a null category, and the table
reads as in the source; in particular x.jpg classifies as image and
x.unknownext as unknown. -/
theorem claim_C5 :
    (∀ (rel name : String) (sz : Nat) (c : Option String),
      ((fileRecord rel name sz c).1).category =
        some (categoryOf (lowerStr (extname name)))) ∧
    (∀ (rel name : String), (folderRecord rel name).category = none) ∧
    (∀ e : String, e ∈ CATEGORY_MAP.map Prod.fst ∨ categoryOf e = "unknown") ∧
    (categoryOf ".html" = "markup" ∧ categoryOf ".css" = "stylesheet" ∧
     categoryOf ".js" = "script" ∧ categoryOf ".json" = "data" ∧
     categoryOf ".jpg" = "image" ∧ categoryOf ".jpeg" = "image" ∧
     categoryOf ".png" = "image" ∧ categoryOf ".gif" = "image" ∧
     categoryOf ".svg" = "image" ∧ categoryOf ".ico" = "image" ∧
     categoryOf ".mp3" = "audio" ∧ categoryOf ".wav" = "audio" ∧
     categoryOf ".mp4" = "video" ∧ categoryOf ".txt" = "document" ∧
     categoryOf ".md" = "document" ∧ categoryOf ".bat" = "script" ∧
     categoryOf ".sh" = "script") ∧
    ((fileRecord "" "x.jpg" 0 none).1).category = some "image" ∧
    ((fileRecord "" "x.unknownext" 0 none).1).category = some "unknown" := by
  refine ⟨fun rel name sz c => rfl, fun rel name => rfl, ?_, by decide, by decide,
    by decide⟩
  intro e
  cases hL : lookupExt e CATEGORY_MAP with
  | none => exact Or.inr (by simp [categoryOf, hL])
  | some v => exact Or.inl (lookupExt_some_mem e CATEGORY_MAP v hL)

theorem extSplit_head : ∀ (cs e : List Char),
    extSplit cs = some e → ∃ t, e = '.' :: t := by
  intro cs
  induction cs with
  | nil => intro e h; simp [extSplit] at h
  | cons c cs ih =>
    intro e h
    simp only [extSplit] at h
    cases hex : extSplit cs with
    | some e2 =>
      rw [hex] at h
      simp only [Option.some.injEq] at h
      exact h ▸ ih e2 hex
    | none =>
      rw [hex] at h
      by_cases hc : (c == '.') = true
      · rw [if_pos hc] at h
        simp only [Option.some.injEq] at h
        exact ⟨cs, by rw [← h, eq_of_beq hc]⟩
      · rw [if_neg (by simpa using hc)] at h
        simp at h

/-- C6 amended: the ext field of a file record is the lowercased result of
the extension computation (which includes the leading dot whenever it is
nonempty), the ext of a folder record is null, and an extensionless file
carries the empty string rather than null. -/
theorem claim_C6 :
    (∀ (rel name : String) (sz : Nat) (c : Option String),
      ((fileRecord rel name sz c).1).ext = some (lowerStr (extname name))) ∧
    (∀ (rel name : String), (folderRecord rel name).ext = none) ∧
    (∀ name : String, extname name = "" ∨
      ∃ t, (lowerStr (extname name)).toList = '.' :: t) ∧
    ((fileRecord "" "README" 3 none).1).ext = some "" := by
  refine ⟨fun rel name sz c => rfl, fun rel name => rfl, ?_, by decide⟩
  intro name
  cases hn : name.data with
  | nil => exact Or.inl (by simp [extname, hn])
  | cons c cs =>
    cases hex : extSplit cs with
    | none => exact Or.inl (by simp [extname, hn, hex])
    | some e =>
      by_cases hdd : name = ".."
      · exact Or.inl (by rw [hdd]; decide)
      · obtain ⟨t, rfl⟩ := extSplit_head cs e hex
        refine Or.inr ⟨t.map Char.toLower, ?_⟩
        have he : extname name = String.mk ('.' :: t) := by
          simp [extname, hn, hex, hdd]
        rw [he]
        simp [lowerStr, show Char.toLower '.' = '.' from by decide]

/-- C6 counterexample: a file without a dot in its name produces a record
whose ext is the empty string, not null as the claim states; the record as
serialised carries an empty string where the claim promises null. -/
theorem claim_C6_counterexample :
    extname "README" = "" ∧
    (walk "" (FSList.cons (FSEntry.file "README" 3 none) FSList.nil)).output =
      [⟨"README", "README", "file", some "", some 3, none, none,
        some "unknown"⟩] ∧
    ¬ ((fileRecord "" "README" 3 none).1).ext = none := by
  decide

/-! ## Dotted segment analysis for C7 -/

theorem hasSub_append_cases (pat a b : List Char)
    (h : hasSub pat (a ++ b) = true) :
    (∃ x y, a = x ++ pat ++ y) ∨ (∃ x y, b = x ++ pat ++ y) ∨
    (∃ pa pb, pat = pa ++ pb ∧ ¬ pa = [] ∧ ¬ pb = [] ∧
      (∃ x, a = x ++ pa) ∧ (∃ y, b = pb ++ y)) := by
  obtain ⟨x, y, heq⟩ := (hasSub_iff pat (a ++ b)).1 h
  rcases Nat.le_total x.length a.length with hle | hle
  · obtain ⟨m, ham, hmb⟩ := sub_decomp x (pat ++ y) a b
      (by rw [← List.append_assoc, ← heq]) hle
    rcases Nat.le_total pat.length m.length with hle2 | hle2
    · obtain ⟨m2, hm2, hy2⟩ := sub_decomp pat y m b hmb hle2
      exact Or.inl ⟨x, m2, by rw [ham, hm2, List.append_assoc]⟩
    · obtain ⟨pb, hpb, hb2⟩ := sub_decomp m b pat y hmb.symm hle2
      by_cases hm : m = []
      · subst hm
        simp only [List.nil_append] at hpb
        exact Or.inr (Or.inl ⟨[], y, by rw [hb2, ← hpb]; simp⟩)
      · by_cases hpbe : pb = []
        · refine Or.inl ⟨x, [], ?_⟩
          rw [ham, show pat = m from by rw [hpb, hpbe]; simp]
          simp
        · exact Or.inr (Or.inr ⟨m, pb, hpb, hm, hpbe, ⟨x, ham⟩, ⟨y, hb2⟩⟩)
  · obtain ⟨m, hxm, hbm⟩ := sub_decomp a b x (pat ++ y)
      (by rw [heq, List.append_assoc]) hle
    refine Or.inr (Or.inl ⟨m, y, ?_⟩)
    rw [hbm, List.append_assoc]

theorem slash_in_name (nl pb y2 : List Char) (h : nl ++ ['/'] = pb ++ y2)
    (hlen : pb.length ≤ nl.length) (hmem : '/' ∈ pb) : '/' ∈ nl := by
  obtain ⟨m, hm, -⟩ := sub_decomp pb y2 nl ['/'] h.symm hlen
  rw [hm]
  exact List.mem_append_left _ hmem

theorem dd_name (n : String) (hn : wfName n = true) :
    dotdotSeg n.toList = false := by
  obtain ⟨hne, hslash, -, hdot1, hdot2⟩ := wfName_spec n hn
  by_contra hdd
  rw [Bool.not_eq_false] at hdd
  unfold dotdotSeg at hdd
  rw [show ('/' :: (n.toList ++ ['/'])) = ('/' :: n.toList) ++ ['/'] from by simp]
    at hdd
  rcases hasSub_append_cases _ _ _ hdd with ⟨x, y, hxy⟩ | ⟨x, y, hxy⟩ |
    ⟨pa, pb, hsplit, hpa, hpb, ⟨x, hx⟩, ⟨y, hy⟩⟩
  · cases x with
    | nil =>
      simp only [List.nil_append, List.cons_append, List.cons.injEq] at hxy
      apply hslash
      rw [hxy.2]
      simp
    | cons c x2 =>
      simp only [List.cons_append, List.cons.injEq] at hxy
      apply hslash
      rw [hxy.2]
      simp
  · have hlen := congrArg List.length hxy
    simp [List.length_append] at hlen
    omega
  · have hlpb := congrArg List.length hy
    simp only [List.length_cons, List.length_append, List.length_nil] at hlpb
    have hpbl : pb.length = 1 := by
      have h2 : 1 ≤ pb.length := List.length_pos.2 hpb
      omega
    cases pb with
    | nil => exact hpb rfl
    | cons pc pcs =>
      simp only [List.length_cons] at hpbl
      have hpcs : pcs = [] := List.length_eq_zero.1 (by omega)
      subst hpcs
      simp only [List.cons_append, List.nil_append, List.cons.injEq] at hy
      obtain ⟨hpc, hy2⟩ := hy
      subst hpc
      have hpa3 : pa = ['/', '.', '.'] :=
        (List.append_inj (show ['/', '.', '.'] ++ ['/'] = pa ++ ['/'] from by
          rw [← hsplit]; rfl) (by
          have := congrArg List.length hsplit
          simp [List.length_append] at this
          simp
          omega)).1.symm
      subst hpa3
      cases x with
      | nil =>
        simp only [List.nil_append, List.cons.injEq] at hx
        apply hdot2
        apply str_ext
        rw [hx.2]
        rfl
      | cons c x2 =>
        simp only [List.cons_append, List.cons.injEq] at hx
        apply hslash
        rw [hx.2]
        simp

theorem dd_join (p : List Char) (n : String) (hdd : dotdotSeg p = false)
    (hn : wfName n = true) : dotdotSeg (p ++ '/' :: n.toList) = false := by
  obtain ⟨hne, hslash, -, hdot1, hdot2⟩ := wfName_spec n hn
  by_contra h
  rw [Bool.not_eq_false] at h
  unfold dotdotSeg at h
  rw [show '/' :: ((p ++ '/' :: n.toList) ++ ['/']) =
      ('/' :: (p ++ ['/'])) ++ (n.toList ++ ['/']) from by simp] at h
  rcases hasSub_append_cases _ _ _ h with ⟨x, y, hxy⟩ | ⟨x, y, hxy⟩ |
    ⟨pa, pb, hsplit, hpa, hpb, ⟨x, hx⟩, ⟨y2, hy⟩⟩
  · have hT : dotdotSeg p = true := by
      unfold dotdotSeg
      exact (hasSub_iff _ _).2 ⟨x, y, by rw [← hxy]⟩
    rw [hdd] at hT
    exact Bool.noConfusion hT
  · have hlen := congrArg List.length hxy
    simp only [List.length_append, List.length_cons, List.length_nil] at hlen
    have hxle : x.length ≤ n.toList.length := by omega
    obtain ⟨m, hm, hmb⟩ := sub_decomp x (['/', '.', '.', '/'] ++ y)
      n.toList ['/'] (by rw [← List.append_assoc, ← hxy]) hxle
    cases m with
    | nil =>
      have := congrArg List.length hmb
      simp [List.length_append] at this
    | cons mc mrest =>
      have hmc : mc = '/' := by
        simp only [List.cons_append, List.cons.injEq] at hmb
        exact hmb.1.symm
      apply hslash
      rw [hm, hmc]
      simp
  · have hl4 := congrArg List.length hsplit
    simp only [List.length_cons, List.length_append, List.length_nil] at hl4
    have hpal : 1 ≤ pa.length := List.length_pos.2 hpa
    have hpbl : 1 ≤ pb.length := List.length_pos.2 hpb
    have hnl : 1 ≤ n.toList.length := List.length_pos.2 hne
    have hylen := congrArg List.length hy
    simp only [List.length_append, List.length_cons, List.length_nil] at hylen
    have hdropb : List.drop pa.length ['/', '.', '.', '/'] = pb := by
      rw [hsplit]
      exact List.drop_left pa pb
    have hpa3 : pa.length = 1 ∨ pa.length = 2 ∨ pa.length = 3 := by omega
    rcases hpa3 with hk | hk | hk
    · have hpbe : pb = ['.', '.', '/'] := by rw [← hdropb, hk]; rfl
      subst hpbe
      have hylen2 : n.toList.length + 1 = 3 + y2.length := by
        simp only [List.length_cons, List.length_nil] at hylen
        omega
      rcases Nat.lt_or_ge n.toList.length 3 with hlt | hge
      · have hy2 : y2 = [] := List.length_eq_zero.1 (by omega)
        subst hy2
        rw [List.append_nil] at hy
        have hnn : n.toList = ['.', '.'] :=
          (List.append_inj (show n.toList ++ ['/'] = ['.', '.'] ++ ['/'] from hy)
            (by simp only [List.length_cons, List.length_nil]; omega)).1
        exact hdot2 (str_ext (by rw [hnn]; rfl))
      · exact hslash (slash_in_name n.toList _ y2 hy
          (by simp only [List.length_cons, List.length_nil]; omega)
          (by simp))
    · have hpbe : pb = ['.', '/'] := by rw [← hdropb, hk]; rfl
      subst hpbe
      have hylen2 : n.toList.length + 1 = 2 + y2.length := by
        simp only [List.length_cons, List.length_nil] at hylen
        omega
      rcases Nat.lt_or_ge n.toList.length 2 with hlt | hge
      · have hy2 : y2 = [] := List.length_eq_zero.1 (by omega)
        subst hy2
        rw [List.append_nil] at hy
        have hnn : n.toList = ['.'] :=
          (List.append_inj (show n.toList ++ ['/'] = ['.'] ++ ['/'] from hy)
            (by simp only [List.length_cons, List.length_nil]; omega)).1
        exact hdot1 (str_ext (by rw [hnn]; rfl))
      · exact hslash (slash_in_name n.toList _ y2 hy
          (by simp only [List.length_cons, List.length_nil]; omega)
          (by simp))
    · have hpbe : pb = ['/'] := by rw [← hdropb, hk]; rfl
      subst hpbe
      exact hslash (slash_in_name n.toList _ y2 hy
        (by simp only [List.length_cons, List.length_nil]; omega)
        (by simp))

theorem dd_jL (rel : String) (n : String) (hn : wfName n = true)
    (hrel : rel.toList = [] ∨ dotdotSeg rel.toList = false) :
    dotdotSeg (jL rel.toList n.toList) = false := by
  by_cases he : rel.toList = []
  · have he2 : rel.data = [] := he
    rw [show jL rel.toList n.toList = n.toList from by simp [jL, he2]]
    exact dd_name n hn
  · rcases hrel with h | h
    · exact absurd h he
    · rw [jL_of_ne _ _ he]
      exact dd_join _ n h hn

mutual

theorem walkEntry_dd : ∀ (rel : String) (e : FSEntry),
    wfEntry e = true → ¬ '\\' ∈ rel.toList →
    (rel.toList = [] ∨ dotdotSeg rel.toList = false) →
    ∀ r ∈ (walkEntry rel e).output, dotdotSeg r.path.toList = false
  | rel, FSEntry.file n sz c, hwf, hrel, hinv => by
    intro r hr
    rw [walkEntry_file_output] at hr
    rcases List.mem_singleton.1 hr with rfl
    rw [fileRecord_path,
      show (normSlashes (joinRel rel n)).toList = jL rel.toList n.toList from
        pathJ rel n hrel hwf]
    exact dd_jL rel n hwf hinv
  | rel, FSEntry.dir n ch, hwf, hrel, hinv => by
    intro r hr
    rw [walkEntry_dir_output] at hr
    have hn : wfName n = true := wfEntry_name _ hwf
    have hch : wfForest ch = true := wfEntry_children n ch hwf
    have hrel2 : ¬ '\\' ∈ (normSlashes (joinRel rel n)).toList := by
      rw [pathJ rel n hrel hn]; exact noBS_jL rel n hrel hn
    have hpathdd : dotdotSeg (jL rel.toList n.toList) = false :=
      dd_jL rel n hn hinv
    rcases List.mem_cons.1 hr with rfl | hr
    · rw [folderRecord_path,
        show (normSlashes (joinRel rel n)).toList = jL rel.toList n.toList from
          pathJ rel n hrel hn]
      exact hpathdd
    · apply walk_dd _ ch hch hrel2 _ r hr
      right
      rw [pathJ rel n hrel hn]
      exact hpathdd

theorem walk_dd : ∀ (rel : String) (es : FSList),
    wfForest es = true → ¬ '\\' ∈ rel.toList →
    (rel.toList = [] ∨ dotdotSeg rel.toList = false) →
    ∀ r ∈ (walk rel es).output, dotdotSeg r.path.toList = false
  | rel, FSList.nil, _, _, _ => by
    intro r hr
    simp [walk] at hr
  | rel, FSList.cons e es, hwf, hrel, hinv => by
    obtain ⟨he, hnm, hes⟩ := wfForest_spec e es hwf
    intro r hr
    rw [walk_cons_output] at hr
    rcases List.mem_append.1 hr with hr | hr
    · exact walkEntry_dd rel e he hrel hinv r hr
    · exact walk_dd rel es hes hrel hinv r hr

end

/-- C7 amended: every recorded path uses forward slash separators by
construction, is nonempty, never begins with a slash, and contains no ".."
as a complete path segment; the blanket reading that no path contains the
two-character substring ".." fails for entry names that themselves contain
consecutive dots (see the counterexample). -/
theorem claim_C7 (root : FSList) (hwf : wfForest root = true) :
    ∀ r ∈ (scan root).output, ¬ r.path = "" ∧
      ¬ r.path.toList.head? = some '/' ∧ dotdotSeg r.path.toList = false := by
  intro r hr
  obtain ⟨nm, hmem, hwfn, hsp⟩ := walk_shape "" root hwf (by decide) r hr
  obtain ⟨A, hA, hAs⟩ := hsp
  obtain ⟨hne, hslash, -, -, -⟩ := wfName_spec nm hwfn
  have hjl : jL ("" : String).toList nm.toList = nm.toList := by
    simp [jL, show ("" : String).toList = [] from rfl]
  rw [hjl] at hA
  refine ⟨?_, ?_, walk_dd "" root hwf (by decide) (Or.inl rfl) r hr⟩
  · intro h0
    rw [h0] at hA
    cases hq : nm.toList with
    | nil => exact hne hq
    | cons c cs =>
      rw [hq] at hA
      simp [show ("" : String).toList = [] from rfl] at hA
  · cases hq : nm.toList with
    | nil => exact absurd hq hne
    | cons c cs =>
      rw [hq] at hA
      rw [hA]
      simp only [List.cons_append, List.head?_cons, Option.some.injEq]
      intro hc
      apply hslash
      rw [hq, hc]
      simp

/-- C7 counterexample: the name of a directory entry may legally contain
consecutive dots, and then the recorded path contains the substring ".."
even though the tree is well formed, against the claim that no path
contains "..". -/
theorem claim_C7_counterexample :
    wfForest (FSList.cons (FSEntry.file "a..b" 0 none) FSList.nil) = true ∧
    ((scan (FSList.cons (FSEntry.file "a..b" 0 none) FSList.nil)).output.map
      (fun r => r.path)) = ["a..b"] ∧
    hasSub ('.' :: '.' :: []) ("a..b" : String).toList = true := by
  decide

theorem claim_C7_witness :
    wfForest (FSList.cons (FSEntry.dir "a"
      (FSList.cons (FSEntry.file "b.txt" 1 none) FSList.nil)) FSList.nil) = true ∧
    (⟨"a", "a", "folder", none, none, none, none, none⟩ : Record) ∈
      (scan (FSList.cons (FSEntry.dir "a"
        (FSList.cons (FSEntry.file "b.txt" 1 none) FSList.nil)) FSList.nil)).output ∧
    (¬ (⟨"a", "a", "folder", none, none, none, none, none⟩ : Record).path = "" ∧
     ¬ (⟨"a", "a", "folder", none, none, none, none, none⟩ : Record).path.toList.head? =
        some '/' ∧
     dotdotSeg (⟨"a", "a", "folder", none, none, none, none, none⟩ :
        Record).path.toList = false) :=
  ⟨by decide, by decide,
    claim_C7 (FSList.cons (FSEntry.dir "a"
      (FSList.cons (FSEntry.file "b.txt" 1 none) FSList.nil)) FSList.nil)
      (by decide) ⟨"a", "a", "folder", none, none, none, none, none⟩ (by decide)⟩

/-! ## Sitemap pattern analysis for C9 -/

theorem ieqL_refl : ∀ (p : List Char), ieqL p p = true
  | [] => rfl
  | c :: cs => by
    simp only [ieqL, Bool.and_eq_true]
    exact ⟨by simp [charIEq], ieqL_refl cs⟩

theorem sitemapScan_sound : ∀ (cs cap : List Char),
    sitemapScan cs = some cap →
    ∃ a b, cs = a ++ b ∧ sitemapMatchAt b = some cap := by
  intro cs
  induction cs with
  | nil => intro cap h; simp [sitemapScan] at h
  | cons c rest ih =>
    intro cap h
    simp only [sitemapScan] at h
    cases hat : sitemapMatchAt (c :: rest) with
    | some cap2 =>
      rw [hat] at h
      simp only [Option.some.injEq] at h
      exact ⟨[], c :: rest, rfl, by rw [hat, h]⟩
    | none =>
      rw [hat] at h
      obtain ⟨a, b, hab, hb⟩ := ih cap h
      exact ⟨c :: a, b, by rw [hab]; rfl, hb⟩

theorem dropWhile_head_false : ∀ (l : List Char) (c : Char) (cs : List Char),
    l.dropWhile isSpaceJS = c :: cs → isSpaceJS c = false := by
  intro l
  induction l with
  | nil => intro c cs h; simp [List.dropWhile] at h
  | cons x xs ih =>
    intro c cs h
    by_cases hx : isSpaceJS x = true
    · rw [List.dropWhile_cons_of_pos hx] at h
      exact ih c cs h
    · rw [List.dropWhile_cons_of_neg hx] at h
      simp only [List.cons.injEq] at h
      rw [← h.1]
      simpa using hx

theorem takeWhile_all_space (l : List Char) :
    (l.takeWhile isSpaceJS).all isSpaceJS = true := by
  induction l with
  | nil => rfl
  | cons x xs ih =>
    by_cases hx : isSpaceJS x = true
    · rw [List.takeWhile_cons_of_pos hx]
      simpa [List.all_cons, hx] using ih
    · rw [List.takeWhile_cons_of_neg hx]
      rfl

theorem skipSpaces1_sound (l r : List Char) (h : skipSpaces1 l = some r) :
    ∃ w, l = w ++ r ∧ ¬ w = [] ∧ w.all isSpaceJS = true ∧
      (∀ c cs, r = c :: cs → isSpaceJS c = false) := by
  cases l with
  | nil => simp [skipSpaces1] at h
  | cons c cs =>
    simp only [skipSpaces1] at h
    by_cases hc : isSpaceJS c = true
    · rw [if_pos hc] at h
      simp only [Option.some.injEq] at h
      refine ⟨c :: cs.takeWhile isSpaceJS, ?_, by simp, ?_, ?_⟩
      · rw [← h]
        simp [List.takeWhile_append_dropWhile]
      · simpa [List.all_cons, hc] using takeWhile_all_space cs
      · intro d ds hd
        exact dropWhile_head_false cs d ds (by rw [h, hd])
    · rw [if_neg hc] at h
      exact absurd h (by simp)

theorem countI_cons_ge (pat : List Char) (c : Char) (l : List Char) :
    countI pat l ≤ countI pat (c :: l) := by
  simp only [countI]
  omega

theorem countI_pos : ∀ (pat a b : List Char), ¬ pat = [] →
    startsWithI pat b = true → 1 ≤ countI pat (a ++ b) := by
  intro pat a
  induction a with
  | nil =>
    intro b hpat hs
    cases b with
    | nil =>
      cases pat with
      | nil => exact absurd rfl hpat
      | cons p ps => simp [startsWithI] at hs
    | cons c cs =>
      simp only [List.nil_append, countI, hs, if_true]
      omega
  | cons c a ih =>
    intro b hpat hs
    calc 1 ≤ countI pat (a ++ b) := ih b hpat hs
      _ ≤ countI pat (c :: (a ++ b)) := countI_cons_ge pat c (a ++ b)

theorem countI_two : ∀ (pat a1 b1 a2 b2 : List Char), ¬ pat = [] →
    a1 ++ b1 = a2 ++ b2 → startsWithI pat b1 = true →
    startsWithI pat b2 = true → a1.length < a2.length →
    2 ≤ countI pat (a1 ++ b1) := by
  intro pat a1
  induction a1 with
  | nil =>
    intro b1 a2 b2 hpat heq hs1 hs2 hlt
    cases a2 with
    | nil => simp at hlt
    | cons c a2 =>
      simp only [List.nil_append] at heq
      subst heq
      simp only [List.cons_append] at hs1
      have hstep : countI pat (c :: (a2 ++ b2)) =
          (if startsWithI pat (c :: (a2 ++ b2)) = true then 1 else 0) +
            countI pat (a2 ++ b2) := by
        simp only [countI]
      rw [List.nil_append, List.cons_append, hstep, if_pos hs1]
      have := countI_pos pat a2 b2 hpat hs2
      omega
  | cons c a1 ih =>
    intro b1 a2 b2 hpat heq hs1 hs2 hlt
    cases a2 with
    | nil => simp at hlt
    | cons d a2 =>
      simp only [List.cons_append, List.cons.injEq] at heq
      obtain ⟨rfl, heq2⟩ := heq
      have h2 := ih b1 a2 b2 hpat heq2 hs1 hs2 (by simpa using hlt)
      calc 2 ≤ countI pat (a1 ++ b1) := h2
        _ ≤ countI pat (c :: (a1 ++ b1)) := countI_cons_ge pat c (a1 ++ b1)

theorem count_one_unique (pat l a1 b1 a2 b2 : List Char) (hpat : ¬ pat = [])
    (h1 : l = a1 ++ b1) (h2 : l = a2 ++ b2)
    (hs1 : startsWithI pat b1 = true) (hs2 : startsWithI pat b2 = true)
    (hc : countI pat l = 1) : a1 = a2 ∧ b1 = b2 := by
  rcases Nat.lt_trichotomy a1.length a2.length with hlt | heq | hlt
  · exfalso
    have := countI_two pat a1 b1 a2 b2 hpat (by rw [← h1, ← h2]) hs1 hs2 hlt
    rw [← h1] at this
    omega
  · exact List.append_inj (by rw [← h1, ← h2]) heq
  · exfalso
    have := countI_two pat a2 b2 a1 b1 hpat (by rw [← h1, ← h2]) hs2 hs1 hlt
    rw [← h2] at this
    omega

theorem space_run_align_le (w r ws x : List Char) (h : w ++ r = ws ++ x)
    (hws : ws.all isSpaceJS = true)
    (hr : ∀ c cs, r = c :: cs → isSpaceJS c = false)
    (hle : w.length ≤ ws.length) : w = ws ∧ r = x := by
  obtain ⟨m, hm, hrx⟩ := sub_decomp w r ws x h hle
  cases m with
  | nil => exact ⟨by simpa using hm.symm, by simpa using hrx⟩
  | cons mc mrest =>
    exfalso
    have hmc : isSpaceJS mc = true := by
      have : mc ∈ ws := by rw [hm]; simp
      exact (List.all_eq_true.1 hws) mc this
    have := hr mc (mrest ++ x) (by rw [hrx, List.cons_append])
    rw [hmc] at this
    exact Bool.noConfusion this

theorem space_run_align (w r ws x : List Char) (h : w ++ r = ws ++ x)
    (hw : w.all isSpaceJS = true) (hws : ws.all isSpaceJS = true)
    (hr : ∀ c cs, r = c :: cs → isSpaceJS c = false)
    (hx : ∀ c cs, x = c :: cs → isSpaceJS c = false) : w = ws ∧ r = x := by
  rcases Nat.le_total w.length ws.length with hle | hle
  · exact space_run_align_le w r ws x h hws hr hle
  · obtain ⟨h1, h2⟩ := space_run_align_le ws x w r h.symm hw hx hle
    exact ⟨h1.symm, h2.symm⟩

theorem sitemapMatchAt_name (b cap : List Char) (h : sitemapMatchAt b = some cap) :
    startsWithI ("<meta".toList) b = true ∧
    ∃ w r, b.drop 5 = w ++ r ∧ ¬ w = [] ∧ w.all isSpaceJS = true ∧
      (∀ c cs, r = c :: cs → isSpaceJS c = false) ∧
      startsWithI ("name=".toList) r = true := by
  unfold sitemapMatchAt at h
  by_cases h1 : startsWithI ("<meta".toList) b = true
  · rw [if_pos h1] at h
    cases hsk : skipSpaces1 (b.drop 5) with
    | none =>
      rw [hsk] at h
      exact absurd h (by simp)
    | some cs1 =>
      rw [hsk] at h
      dsimp only at h
      by_cases h2 : startsWithI ("name=".toList) cs1 = true
      · obtain ⟨w, hw, hwne, hwall, hrhead⟩ := skipSpaces1_sound _ _ hsk
        exact ⟨h1, w, cs1, hw, hwne, hwall, hrhead, h2⟩
      · rw [if_neg h2] at h
        exact absurd h (by simp)
  · rw [if_neg h1] at h
    exact absurd h (by simp)

theorem startsWithI_name_content (X : List Char) :
    startsWithI ("name=".toList) ("content=".toList ++ X) = false := by
  have hstep : startsWithI ("name=".toList) ("content=".toList ++ X) =
      (charIEq 'n' 'c' && startsWithI "ame=".toList ("ontent=".toList ++ X)) :=
    rfl
  rw [hstep, show charIEq 'n' 'c' = false from by decide, Bool.false_and]

theorem content_head (X : List Char) (c : Char) (cs : List Char)
    (h : "content=".toList ++ X = c :: cs) : isSpaceJS c = false := by
  have h2 : ('c' :: ("ontent=".toList ++ X)) = c :: cs := by rw [← h]; rfl
  simp only [List.cons.injEq] at h2
  rw [← h2.1]
  decide

/-- C9: attribute order — the sitemap pattern requires the name attribute
right after the meta opening and before the content attribute, so a file
whose one meta tag lists content before name (the example form meta
content then name sitemap) matches nowhere and the record falls back to
the sitemap value "none". -/
theorem claim_C9 (rel name : String) (sz : Nat)
    (text pre v ws1 ws2 post : List Char) (q1 q2 q3 q4 : Char)
    (hext : lowerStr (extname name) = ".html")
    (hT : text = pre ++ ("<meta".toList ++ (ws1 ++ ("content=".toList ++
      (q1 :: v ++ (q2 :: ws2 ++ ("name=".toList ++
      (q3 :: "sitemap".toList ++ q4 :: post))))))))
    (hw1 : ¬ ws1 = []) (hw1s : ws1.all isSpaceJS = true)
    (hw2 : ¬ ws2 = []) (hw2s : ws2.all isSpaceJS = true)
    (hq1 : isQuote q1 = true) (hq2 : isQuote q2 = true)
    (hq3 : isQuote q3 = true) (hq4 : isQuote q4 = true)
    (hcount : countI ("<meta".toList) text = 1) :
    sitemapScan text = none ∧
    ((fileRecord rel name sz (some (String.mk text))).1).sitemap =
      some "none" := by
  have hnone : sitemapScan text = none := by
    cases hscan : sitemapScan text with
    | none => rfl
    | some cap =>
      exfalso
      obtain ⟨a, b, hab, hat⟩ := sitemapScan_sound text cap hscan
      obtain ⟨h1, w, r, hdrop, hwne, hwall, hrhead, hname⟩ :=
        sitemapMatchAt_name b cap hat
      have hs2 : startsWithI ("<meta".toList)
          ("<meta".toList ++ (ws1 ++ ("content=".toList ++ (q1 :: v ++
            (q2 :: ws2 ++ ("name=".toList ++
            (q3 :: "sitemap".toList ++ q4 :: post))))))) = true :=
        (startsWithI_iff _ _).2 ⟨"<meta".toList, _, rfl, ieqL_refl _⟩
      obtain ⟨hape, hbe⟩ := count_one_unique ("<meta".toList) text a b pre _
        (by decide) hab hT h1 hs2 hcount
      have hlen5 : ("<meta".toList).length = 5 := rfl
      have hb5 : b.drop 5 = ws1 ++ ("content=".toList ++ (q1 :: v ++
          (q2 :: ws2 ++ ("name=".toList ++
          (q3 :: "sitemap".toList ++ q4 :: post))))) := by
        rw [hbe, ← hlen5]
        exact List.drop_left _ _
      rw [hb5] at hdrop
      obtain ⟨hweq, hreq⟩ := space_run_align w r ws1 _ hdrop.symm hwall hw1s
        hrhead (content_head _)
      rw [hreq] at hname
      rw [startsWithI_name_content] at hname
      exact Bool.noConfusion hname
  refine ⟨hnone, ?_⟩
  simp only [fileRecord, hext, htmlMeta, toList_mk]
  simp [hnone]

theorem claim_C9_witness :
    lowerStr (extname "x.html") = ".html" ∧
    countI ("<meta".toList)
      ("<meta content=\"exclude\" name=\"sitemap\">".toList) = 1 ∧
    (sitemapScan ("<meta content=\"exclude\" name=\"sitemap\">".toList) = none ∧
     ((fileRecord "" "x.html" 0
       (some (String.mk
         ("<meta content=\"exclude\" name=\"sitemap\">".toList)))).1).sitemap =
       some "none") :=
  ⟨by decide, by decide,
    claim_C9 "" "x.html" 0
      ("<meta content=\"exclude\" name=\"sitemap\">".toList)
      [] "exclude".toList [' '] [' '] ">".toList '"' '"' '"' '"'
      (by decide) (by decide) (by decide) (by decide) (by decide) (by decide)
      (by decide) (by decide) (by decide) (by decide) (by decide)⟩

/-! ## Character case analysis for C10 -/

theorem charOfNat_toNat (n : Nat) (h : n.isValidChar) :
    (Char.ofNat n).toNat = n := by
  unfold Char.ofNat
  rw [dif_pos h]
  rfl

theorem toLower_eq_self_of_lt (c : Char) (h : c.toNat < 65) :
    Char.toLower c = c := by
  unfold Char.toLower
  rw [if_neg]
  omega

theorem toLower_in_range (c : Char) (h1 : 65 ≤ c.toNat) (h2 : c.toNat ≤ 90) :
    (Char.toLower c).toNat = c.toNat + 32 := by
  unfold Char.toLower
  rw [if_pos ⟨h1, h2⟩]
  exact charOfNat_toNat _ (Or.inl (by omega))

theorem charIEq_low_inv (d c : Char) (hd : d.toNat < 65)
    (h : charIEq d c = true) : c = d := by
  have heq : Char.toLower d = Char.toLower c := by simpa [charIEq] using h
  rw [toLower_eq_self_of_lt d hd] at heq
  by_cases hc : 65 ≤ c.toNat ∧ c.toNat ≤ 90
  · exfalso
    have h32 := toLower_in_range c hc.1 hc.2
    have hdn := congrArg Char.toNat heq
    rw [h32] at hdn
    omega
  · have hcc : Char.toLower c = c := by
      unfold Char.toLower
      rw [if_neg hc]
    rw [hcc] at heq
    exact heq.symm

theorem lt_head (b : List Char) (h : startsWithI ("<title>".toList) b = true) :
    ∃ bs, b = '<' :: bs := by
  cases b with
  | nil => exact absurd h (by decide)
  | cons c bs =>
    have hstep : startsWithI ("<title>".toList) (c :: bs) =
        (charIEq '<' c && startsWithI ("title>".toList) bs) := rfl
    rw [hstep, Bool.and_eq_true] at h
    have hc := charIEq_low_inv '<' c (by decide) h.1
    exact ⟨bs, by rw [hc]⟩

theorem lt_unique (u v : List Char) (hu : ¬ '<' ∈ u) (hv : ¬ '<' ∈ v) :
    ∀ a2 bs, u ++ '<' :: v = a2 ++ '<' :: bs → a2 = u ∧ bs = v := by
  intro a2 bs heq
  rcases Nat.le_total a2.length u.length with hle | hle
  · obtain ⟨m, hm, hmb⟩ := sub_decomp a2 ('<' :: bs) u ('<' :: v) heq.symm hle
    cases m with
    | nil =>
      refine ⟨by simpa using hm.symm, ?_⟩
      simp only [List.nil_append, List.cons.injEq] at hmb
      exact hmb.2
    | cons mc m2 =>
      exfalso
      simp only [List.cons_append, List.cons.injEq] at hmb
      apply hu
      rw [hm, ← hmb.1]
      simp
  · obtain ⟨m, hm, hmb⟩ := sub_decomp u ('<' :: v) a2 ('<' :: bs) heq hle
    cases m with
    | nil =>
      refine ⟨by simpa using hm, ?_⟩
      simp only [List.nil_append, List.cons.injEq] at hmb
      exact hmb.2.symm
    | cons mc m2 =>
      exfalso
      simp only [List.cons_append, List.cons.injEq] at hmb
      apply hv
      rw [hmb.2]
      simp

theorem lt_positions (u v : List Char) (hu : ¬ '<' ∈ u) (hv : ¬ '<' ∈ v) :
    ∀ a bs, '<' :: (u ++ '<' :: v) = a ++ '<' :: bs →
      (a = [] ∧ bs = u ++ '<' :: v) ∨ (a = '<' :: u ∧ bs = v) := by
  intro a bs heq
  cases a with
  | nil =>
    left
    simp only [List.nil_append, List.cons.injEq] at heq
    exact ⟨rfl, heq.2.symm⟩
  | cons c a2 =>
    right
    simp only [List.cons_append, List.cons.injEq] at heq
    obtain ⟨h1, h2⟩ := lt_unique u v hu hv a2 bs heq.2
    exact ⟨by rw [← heq.1, h1], h2⟩

theorem titleClose_none : ∀ (mid : List Char), mid.any isLineTerm = true →
    ¬ '<' ∈ mid → titleClose (mid ++ "</title>".toList) = none := by
  intro mid
  induction mid with
  | nil =>
    intro h _
    simp at h
  | cons c mid ih =>
    intro hany hlt
    simp only [List.mem_cons, not_or] at hlt
    have hsw : startsWithI ("</title>".toList)
        (c :: (mid ++ "</title>".toList)) = false := by
      have hstep : startsWithI ("</title>".toList)
          (c :: (mid ++ "</title>".toList)) =
          (charIEq '<' c &&
            startsWithI ("/title>".toList) (mid ++ "</title>".toList)) := rfl
      rw [hstep]
      cases hc : charIEq '<' c with
      | false => rfl
      | true =>
        exfalso
        exact hlt.1 (charIEq_low_inv '<' c (by decide) hc).symm
    have hstep2 : titleClose ((c :: mid) ++ "</title>".toList) =
        titleClose (c :: (mid ++ "</title>".toList)) := by
      rw [List.cons_append]
    have hunfold : titleClose (c :: (mid ++ "</title>".toList)) =
        if startsWithI ("</title>".toList) (c :: (mid ++ "</title>".toList))
        then some []
        else if isLineTerm c then none
        else (titleClose (mid ++ "</title>".toList)).map (fun t => c :: t) :=
      rfl
    rw [hstep2, hunfold, if_neg (by rw [hsw]; simp)]
    by_cases hc : isLineTerm c = true
    · rw [if_pos hc]
    · rw [if_neg hc]
      have hmid : mid.any isLineTerm = true := by
        simp only [List.any_cons, Bool.or_eq_true] at hany
        rcases hany with h | h
        · exact absurd h hc
        · exact h
      rw [ih hmid hlt.2]
      rfl

theorem fileRecord_html_title (rel name : String) (sz : Nat) (text : String)
    (hext : lowerStr (extname name) = ".html") :
    ((fileRecord rel name sz (some text)).1).title =
      (titleScan text.toList).map (fun cap => String.mk (trimJS cap)) := by
  simp only [fileRecord, hext, htmlMeta]
  simp

theorem titleScan_eq_none : ∀ (cs : List Char),
    (∀ a b, cs = a ++ b → startsWithI ("<title>".toList) b = true →
      titleClose (b.drop 7) = none) → titleScan cs = none := by
  intro cs
  induction cs with
  | nil => intro _; rfl
  | cons c rest ih =>
    intro h
    by_cases hs : startsWithI ("<title>".toList) (c :: rest) = true
    · have hcl := h [] (c :: rest) rfl hs
      have hunfold : titleScan (c :: rest) =
          match titleClose ((c :: rest).drop 7) with
          | some cap => some cap
          | none => titleScan rest := by
        simp only [titleScan, if_pos hs]
      rw [hunfold, hcl]
      exact ih (fun a b hab hsb => h (c :: a) b (by rw [hab]; rfl) hsb)
    · have hunfold : titleScan (c :: rest) = titleScan rest := by
        simp only [titleScan, if_neg hs]
      rw [hunfold]
      exact ih (fun a b hab hsb => h (c :: a) b (by rw [hab]; rfl) hsb)

/-- C10 amended: the title pattern never matches a pair whose inner text
crosses a line terminator, so for a readable HTML file consisting of one
title element whose inner text spans lines (and contains no further
angle-open character) the pattern matches nowhere and the record title
stays null; a later same-line pair elsewhere in a file can still match, as
the counterexample shows. -/
theorem claim_C10 (rel name : String) (sz : Nat) (mid : List Char)
    (hext : lowerStr (extname name) = ".html")
    (hterm : mid.any isLineTerm = true)
    (hlt : ¬ '<' ∈ mid) :
    titleScan ("<title>".toList ++ (mid ++ "</title>".toList)) = none ∧
    ((fileRecord rel name sz (some (String.mk
      ("<title>".toList ++ (mid ++ "</title>".toList))))).1).title = none := by
  have hnone : titleScan ("<title>".toList ++ (mid ++ "</title>".toList)) =
      none := by
    apply titleScan_eq_none
    intro a b hab hsb
    obtain ⟨bs, rfl⟩ := lt_head b hsb
    have hX : "<title>".toList ++ (mid ++ "</title>".toList) =
        '<' :: (("title>".toList ++ mid) ++ '<' :: "/title>".toList) := by
      simp
    rw [hX] at hab
    have hu : ¬ '<' ∈ ("title>".toList ++ mid) := by
      intro hm
      rcases List.mem_append.1 hm with hm | hm
      · exact absurd hm (by decide)
      · exact hlt hm
    have hv : ¬ '<' ∈ ("/title>".toList) := by decide
    rcases lt_positions _ _ hu hv a bs hab with ⟨ha, hbs⟩ | ⟨ha, hbs⟩
    · subst hbs
      have hre : ('<' : Char) :: (("title>".toList ++ mid) ++
          '<' :: "/title>".toList) =
          "<title>".toList ++ (mid ++ "</title>".toList) := hX.symm
      rw [show (('<' : Char) :: (("title>".toList ++ mid) ++
          '<' :: "/title>".toList)).drop 7 = mid ++ "</title>".toList from by
        rw [hre, show (7 : Nat) = ("<title>".toList).length from rfl]
        exact List.drop_left _ _]
      exact titleClose_none mid hterm hlt
    · subst hbs
      exact absurd hsb (by decide)
  refine ⟨hnone, ?_⟩
  rw [fileRecord_html_title rel name sz _ hext, toList_mk, hnone]
  rfl

theorem claim_C10_witness :
    lowerStr (extname "p.html") = ".html" ∧
    ("\nx".toList.any isLineTerm = true ∧ ¬ '<' ∈ "\nx".toList) ∧
    (titleScan ("<title>".toList ++ ("\nx".toList ++ "</title>".toList)) =
      none ∧
    ((fileRecord "" "p.html" 0 (some (String.mk
      ("<title>".toList ++ ("\nx".toList ++ "</title>".toList))))).1).title =
      none) :=
  ⟨by decide, ⟨by decide, by decide⟩,
    claim_C10 "" "p.html" 0 ("\nx".toList) (by decide) (by decide) (by decide)⟩

/-- C10 counterexample: a readable HTML file whose first title element
spans a newline can still get a non-null title when a later title pair sits
on one line: the scan skips the failed first opening and matches the later
pair, so the record title is the later capture, not null. -/
theorem claim_C10_counterexample :
    "<title>\na</title><title>b</title>".toList.take 8 = "<title>\n".toList ∧
    ((fileRecord "" "x.html" 0
      (some "<title>\na</title><title>b</title>")).1).title = some "b" ∧
    ¬ ((fileRecord "" "x.html" 0
      (some "<title>\na</title><title>b</title>")).1).title = none := by
  decide
